import Mathlib

/-!
# NFLRushStats dashboard: view-state controller

A shallow embedding of `frontend/src/pages/Dashboard.js`:

* `formatCellData`, the cell normaliser;
* `sortResults`, the per-page sort (the comparator is the one of the source,
  `Array.prototype.sort` is modelled by `arraySort`);
* the component state of `Dashboard` with its pagination transitions, the
  fetch completion handler of `searchRequest`, `updatePlayerSort` and
  `showSortOrder`.

JavaScript strings are Lean strings, `undefined`/`null` are constructors of
`Cell`, `NaN` is `none` in `Option N`.
-/

namespace Dashboard

/-! ## JavaScript values and string primitives -/

/-- A value found in a field of a player record (or `undefined` when the field
is absent). -/
inductive Cell where
  | undefined : Cell
  | null : Cell
  | boolean (b : Bool) : Cell
  | number (n : Int) : Cell
  | string (s : String) : Cell
  deriving DecidableEq, Repr

/-- A player record: its fields in order, read with `Player.get`. -/
abbrev Player := List (String × Cell)

/-- Property access `player[key]`: the field's value, `undefined` when the
record has no such field. -/
def Player.get (player : Player) (key : String) : Cell :=
  match player.lookup key with
  | some c => c
  | none => Cell.undefined

/-- Substring test on character lists: does `pat` occur in the list? -/
def hasInfix : List Char → List Char → Bool
  | [], pat => pat.isEmpty
  | c :: cs, pat => pat.isPrefixOf (c :: cs) || hasInfix cs pat

/-- Replacement of the first occurrence of `pat` by `rep`, on character
lists. -/
def replaceFirst : List Char → List Char → List Char → List Char
  | [], pat, rep => if pat.isEmpty then rep else []
  | c :: cs, pat, rep =>
    if pat.isPrefixOf (c :: cs) then rep ++ (c :: cs).drop pat.length
    else c :: replaceFirst cs pat rep

/-- The method `String.prototype.includes(searchString)`. -/
def jsIncludes (s searchString : String) : Bool :=
  hasInfix s.data searchString.data

/-- The method `String.prototype.replace(pattern, replacement)` with a string
pattern: only the first occurrence is replaced. -/
def jsReplace (s pattern replacement : String) : String :=
  String.mk (replaceFirst s.data pattern.data replacement.data)

/-! ## Cell normaliser -/

/-- The function `formatCellData(cell)`. The guard
`cellData && typeof cellData === "string"` holds for non-empty strings only. -/
def formatCellData (cell : Cell) : Cell :=
  match cell with
  | Cell.string s =>
    if s ≠ "" then
      -- strips T values out of cells for sorting calculations
      let cellData := if jsIncludes s "T" then jsReplace s "T" "" else s
      -- strips commas out of cells for sorting calculations
      let cellData := if jsIncludes cellData "," then jsReplace cellData "," "" else cellData
      Cell.string cellData
    else cell
  | _ => cell


/-! ## Numbers

The result of the coercion `Number(x)` is modelled as `Option N`: `none` is
`NaN`, `some x` a number, where the numbers `N` are only required to be
linearly ordered. The coercion itself is a parameter `toNumber` of the sort, so
that no property depends on how strings are parsed. -/

/-- The comparison `a <= b` of two numbers: false as soon as one is `NaN`. -/
def jsLe {N : Type} [LinearOrder N] (a b : Option N) : Bool :=
  match a, b with
  | some x, some y => decide (x ≤ y)
  | _, _ => false

/-- The comparison `a > b` of two numbers: false as soon as one is `NaN`. -/
def jsGt {N : Type} [LinearOrder N] (a b : Option N) : Bool :=
  match a, b with
  | some x, some y => decide (y < x)
  | _, _ => false

/-- Value of a string of decimal digits, `none` when a character is not a
digit. The accumulator holds the value of the digits read so far. -/
def digitsValue : List Char → Nat → Option Nat
  | [], acc => some acc
  | c :: cs, acc =>
    if c.isDigit then digitsValue cs (10 * acc + (c.toNat - 48)) else none

/-- The coercion `Number(x)` on the integer fragment: `undefined` is `NaN`,
`null` is 0, booleans are 0 and 1, the empty string is 0, a string of decimal
digits with an optional sign is its value. Every other string is mapped to
`NaN` here (decimal fractions, exponents, surrounding blanks are not parsed);
it is used for the concrete records below only. -/
def integerToNumber : Cell → Option Int
  | Cell.undefined => none
  | Cell.null => some 0
  | Cell.boolean b => some (if b then 1 else 0)
  | Cell.number n => some n
  | Cell.string s =>
    match s.data with
    | [] => some 0
    | '-' :: d :: ds => (digitsValue (d :: ds) 0).map fun n => - (n : Int)
    | '+' :: d :: ds => (digitsValue (d :: ds) 0).map fun n => (n : Int)
    | ds => if ds.head?.any Char.isDigit then (digitsValue ds 0).map fun n => (n : Int) else none

/-! ## Array.prototype.sort

`sortResults` hands its comparator to the `sort` of the host engine. ECMAScript
fixes the result only for a consistent comparator and leaves it to the engine
otherwise, so the engine has to be modelled. The model follows V8 (the engine
of Chrome and Node, file `builtins/array-sort.tq`), in the form its sort takes
for arrays of fewer than 64 elements, where the whole array is a single run:
`CountAndMakeRun` finds the maximal run at the start of the array (reversing it
when it is strictly descending), then `BinaryInsertionSort` inserts each
remaining element into the sorted prefix. From 64 elements on V8 cuts the array
into several such runs and merges them; that part is not modelled, and the
single-run form is applied to every length.

A comparator result `order < 0` means "the first argument goes before the
second". -/

section ArraySort

variable {α : Type}

/-- The loop of `CountAndMakeRun`: how many further elements extend the run
that ends in `previousElement`. -/
def countRun (comparefn : α → α → Int) (isDescending : Bool) : α → List α → Nat
  | _, [] => 0
  | previousElement, currentElement :: rest =>
    let order := comparefn currentElement previousElement
    if isDescending then
      if order ≥ 0 then 0 else countRun comparefn isDescending currentElement rest + 1
    else
      if order < 0 then 0 else countRun comparefn isDescending currentElement rest + 1

/-- The function `CountAndMakeRun`: the run at the start of the array, made
ascending, and the elements after it. -/
def countAndMakeRun (comparefn : α → α → Int) : List α → List α × List α
  | [] => ([], [])
  | [x] => ([x], [])
  | elementHigh :: elementLow :: rest =>
    let order := comparefn elementLow elementHigh
    let isDescending : Bool := decide (order < 0)
    let runLength := 2 + countRun comparefn isDescending elementLow rest
    let a := elementHigh :: elementLow :: rest
    (if isDescending then (a.take runLength).reverse else a.take runLength,
      a.drop runLength)

/-- The binary search of `BinaryInsertionSort`: the index in `[left, right]`
where `pivot` belongs in the sorted prefix `a`. The interval shrinks at every
iteration, so `fuel = right - left` iterations are always enough. -/
def binarySearch (comparefn : α → α → Int) (pivot : α) (a : List α) :
    Nat → Nat → Nat → Nat
  | 0, left, _ => left
  | fuel + 1, left, right =>
    if left < right then
      let mid := left + (right - left) / 2
      match a[mid]? with
      | some e =>
        if comparefn pivot e < 0 then binarySearch comparefn pivot a fuel left mid
        else binarySearch comparefn pivot a fuel (mid + 1) right
      | none => left
    else left

/-- One iteration of `BinaryInsertionSort`: `pivot` is put at the index found
by the binary search, the elements from there on move one place to the right. -/
def binaryInsert (comparefn : α → α → Int) (sorted : List α) (pivot : α) : List α :=
  let left := binarySearch comparefn pivot sorted sorted.length 0 sorted.length
  sorted.take left ++ pivot :: sorted.drop left

/-- The function `BinaryInsertionSort`: the elements of `rest` are inserted one
after the other, left to right, into the sorted run. -/
def binaryInsertionSort (comparefn : α → α → Int) (run rest : List α) : List α :=
  rest.foldl (binaryInsert comparefn) run

/-- The method `Array.prototype.sort(comparefn)`. -/
def arraySort (comparefn : α → α → Int) (a : List α) : List α :=
  if a.length < 2 then a
  else binaryInsertionSort comparefn (countAndMakeRun comparefn a).1
    (countAndMakeRun comparefn a).2

end ArraySort

/-! ## Sort engine -/

section SortResults

variable {N : Type} [LinearOrder N]

/-- The comparator passed to `sort` by `sortResults`. -/
def comparePlayers (toNumber : Cell → Option N) (key : String) (sortOrder : Nat)
    (player1 player2 : Player) : Int :=
  let filterOn1 := formatCellData (player1.get key)
  let filterOn2 := formatCellData (player2.get key)
  if sortOrder = 0 then
    if jsLe (toNumber filterOn1) (toNumber filterOn2) then 1 else -1
  else
    if jsGt (toNumber filterOn1) (toNumber filterOn2) then 1 else -1

/-- The function `sortResults(players, key, sortOrder)`. The `sort` of the
source reorders `players` in place and returns it; the model returns the
reordered list. -/
def sortResults (toNumber : Cell → Option N) (players : List Player) (key : String)
    (sortOrder : Nat) : List Player :=
  arraySort (comparePlayers toNumber key sortOrder) players

/-- The number that the comparator reads from a record:
`Number(formatCellData(player[key]))`. -/
def sortValue (toNumber : Cell → Option N) (key : String) (player : Player) : Option N :=
  toNumber (formatCellData (player.get key))

/-- The position of a compared number in the order of the numbers, `NaN` put
below all of them. -/
def rankOf (v : Option N) : WithBot N :=
  match v with
  | some x => (x : WithBot N)
  | none => ⊥

end SortResults

/-! ## Component state of `Dashboard` -/

/-- The state held by the hooks of `Dashboard`. `page` and `maxPage` are
numbers (integers here), `entries` is the value of the selected option,
`debouncedPS` the debounced copy of `playerSearch`. -/
structure DashboardState where
  page : Int
  maxPage : Int
  entries : Nat
  playerSearch : String
  debouncedPS : String
  results : List Player
  filterKey : String
  sortOrder : Nat
  deriving DecidableEq, Repr

/-- The initial values passed to `React.useState`. -/
def initialState : DashboardState :=
  { page := 1, maxPage := 0, entries := 10, playerSearch := "", debouncedPS := "",
    results := [], filterKey := "", sortOrder := 0 }

section Derived

variable {N : Type} [LinearOrder N]

/-- The constant `sortedResults` of a render. -/
def sortedResults (toNumber : Cell → Option N) (s : DashboardState) : List Player :=
  sortResults toNumber s.results s.filterKey s.sortOrder

/-- The constant `disableNext` of a render. -/
def disableNext (toNumber : Cell → Option N) (s : DashboardState) : Bool :=
  decide (s.page = s.maxPage) ||
  decide ((sortedResults toNumber s).length = 0) ||
  decide ((sortedResults toNumber s).length < s.entries)

end Derived

/-! ## Pagination controls -/

/-- The `disabled` attribute of the Previous button. -/
def disablePrevious (s : DashboardState) : Bool :=
  decide (s.page = 1)

/-- The `onClick` handler of the Previous button:
`page !== 1 && setPage(Number(page - 1))`. -/
def previousOnClick (s : DashboardState) : DashboardState :=
  if s.page ≠ 1 then { s with page := s.page - 1 } else s

/-- The `onClick` handler of the Next button:
`page < maxPage && setPage(Number(page + 1))`. -/
def nextOnClick (s : DashboardState) : DashboardState :=
  if s.page < s.maxPage then { s with page := s.page + 1 } else s

/-- A click on the Previous button: a disabled button does not run its
handler. -/
def clickPrevious (s : DashboardState) : DashboardState :=
  if disablePrevious s then s else previousOnClick s

/-- A click on the Next button: a disabled button does not run its handler. -/
def clickNext {N : Type} [LinearOrder N] (toNumber : Cell → Option N)
    (s : DashboardState) : DashboardState :=
  if disableNext toNumber s then s else nextOnClick s

/-- The `onChange` handler of the Entries select: `setEntries(e.target.value)`,
with the value of the chosen option. -/
def changeEntries (value : Nat) (s : DashboardState) : DashboardState :=
  { s with entries := value }

/-- The values of the options of the Entries select. -/
def entriesOptions : List Nat := [10, 25, 50, 75, 100]

/-- The pagination invariant: `page` is positive and at most
`max(maxPage, 1)`. -/
def paginationInvariant (s : DashboardState) : Prop :=
  1 ≤ s.page ∧ s.page ≤ max s.maxPage 1

/-! ## Fetch -/

/-- The argument of `fetchPlayers`. -/
structure FetchRequest where
  page : Int
  entries : Nat
  search : String
  deriving DecidableEq, Repr

/-- The `data` of a response, with `maxPage` and `page` already coerced by
`Number` (integers here). -/
structure FetchData where
  players : List Player
  maxPage : Int
  page : Int
  deriving DecidableEq, Repr

/-- The three setters that follow the `await` of `searchRequest`, in order:
`setResults(data.players)`, `setMaxPage(Number(data.maxPage))`,
`setPage(Number(data.page))`. -/
def applyFetchData (s : DashboardState) (data : FetchData) : DashboardState :=
  let s1 := { s with results := data.players }
  let s2 := { s1 with maxPage := data.maxPage }
  { s2 with page := data.page }

/-- The function `searchRequest`: the request is built from the state, and the
setters run only when the awaited call resolves; a rejection leaves
`searchRequest` at the `await`, before any setter. -/
def searchRequest {ε : Type} (fetchPlayers : FetchRequest → Except ε FetchData)
    (s : DashboardState) : DashboardState :=
  match fetchPlayers { page := s.page, entries := s.entries, search := s.debouncedPS } with
  | Except.ok data => applyFetchData s data
  | Except.error _ => s

/-- A completed request: `seq` is its rank in the order of issue (a label of
the model, the source keeps none), `data` the response. -/
structure Completion where
  seq : Nat
  data : FetchData
  deriving DecidableEq, Repr

/-- The state after the responses of `arrivals` have resolved, in order of
arrival: each one runs the setters of `searchRequest`. -/
def applyCompletions (s : DashboardState) (arrivals : List Completion) : DashboardState :=
  arrivals.foldl (fun st c => applyFetchData st c.data) s

/-! ## Sort controls -/

/-- The function `updatePlayerSort(key)`. The tests on `sortOrder` and
`filterKey` read the values of the render that created the handler, the
setters only take effect at the next render. -/
def updatePlayerSort (key : String) (s : DashboardState) : DashboardState :=
  let s1 :=
    if key = s.filterKey then
      let s0 := if s.sortOrder = 0 then { s with sortOrder := 1 } else s
      if s.sortOrder = 1 then { s0 with sortOrder := 0 } else s0
    else { s with sortOrder := 0 }
  { s1 with filterKey := key }

/-- The function `showSortOrder(key)`; the return value is `null`, a string, or
`undefined` when no `return` is reached. -/
def showSortOrder (s : DashboardState) (key : String) : Cell :=
  if s.filterKey ≠ key then Cell.null
  else if s.sortOrder = 0 then Cell.string "^"
  else if s.sortOrder = 1 then Cell.string "v"
  else Cell.undefined

/-! ## Concrete records and states -/

/-- A page of ten records. -/
def tenPlayers : List Player :=
  List.replicate 10 [("Player", Cell.string "A"), ("Yds", Cell.string "7")]

/-- A state in which the server has answered with a full page and a page
number above `maxPage`. -/
def pastLastPage : DashboardState :=
  { initialState with page := 2, maxPage := 1, results := tenPlayers }

/-- A state on the fifth of thirty-three pages of ten records. -/
def fifthOfMany : DashboardState :=
  { initialState with page := 5, maxPage := 33, results := tenPlayers }

/-- A server that holds 330 records: it answers with the requested page
number, the number of pages for the requested page size, and no record for a
page beyond the last one. -/
def echoServer (request : FetchRequest) : Except String FetchData :=
  Except.ok
    { players := if request.page * request.entries ≤ 330 then tenPlayers else [],
      maxPage := (330 + request.entries - 1) / request.entries,
      page := request.page }

/-- A state on the second of three pages. -/
def secondOfThree : DashboardState :=
  { initialState with page := 2, maxPage := 3, results := tenPlayers, filterKey := "Yds" }

/-- The answer to the request issued first: page 1. -/
def firstIssued : Completion :=
  { seq := 1, data := { players := [[("Player", Cell.string "A")]], maxPage := 3, page := 1 } }

/-- The answer to the request issued second: page 2. -/
def secondIssued : Completion :=
  { seq := 2, data := { players := [[("Player", Cell.string "B")]], maxPage := 3, page := 2 } }

/-- A record with a name and a value of the `Yds` column. -/
def mkPlayer (name yds : String) : Player :=
  [("Player", Cell.string name), ("Yds", Cell.string yds)]

/-! # Properties -/

/-! ## Cell normaliser -/

theorem isPrefixOf_singleton (c x : Char) (xs : List Char) :
    [c].isPrefixOf (x :: xs) = (c == x) := by
  simp [List.isPrefixOf]

theorem hasInfix_singleton (l : List Char) (c : Char) :
    hasInfix l [c] = decide (c ∈ l) := by
  induction l with
  | nil => simp [hasInfix]
  | cons x xs ih =>
    simp only [hasInfix, isPrefixOf_singleton, ih, List.mem_cons]
    by_cases h : c = x <;> simp [h]

theorem replaceFirst_singleton (l : List Char) (c : Char) :
    replaceFirst l [c] [] = l.erase c := by
  induction l with
  | nil => simp [replaceFirst]
  | cons x xs ih =>
    simp only [replaceFirst, isPrefixOf_singleton, ih, List.erase_cons]
    by_cases h : c = x
    · subst h; simp
    · have h2 : ¬ x = c := fun e => h e.symm
      simp [h, h2]

theorem formatCellData_string (s : String) :
    formatCellData (Cell.string s) = Cell.string (String.mk ((s.data.erase 'T').erase ',')) := by
  obtain ⟨l⟩ := s
  unfold formatCellData
  by_cases hl : (String.mk l) = ""
  · have : l = [] := by simpa using congrArg String.data hl
    subst this
    simp
  · simp only [ne_eq, hl, not_false_eq_true, if_true, jsIncludes, jsReplace]
    have hT : ("T" : String).data = ['T'] := rfl
    have hC : (",": String).data = [','] := rfl
    have hE : ("" : String).data = [] := rfl
    simp only [hT, hC, hE, hasInfix_singleton, replaceFirst_singleton, decide_eq_true_eq]
    by_cases h1 : 'T' ∈ l
    · simp only [h1, if_true]
      by_cases h2 : ',' ∈ l.erase 'T'
      · simp [h2]
      · simp [h2, List.erase_of_not_mem h2]
    · simp only [h1, if_false, List.erase_of_not_mem h1]
      by_cases h2 : ',' ∈ l
      · simp [h2]
      · simp [h2, List.erase_of_not_mem h2]

theorem string_mk_inj (a b : List Char) : String.mk a = String.mk b ↔ a = b :=
  ⟨fun h => congrArg String.data h, fun h => by rw [h]⟩

theorem count_T_strip (l : List Char) :
    ((l.erase 'T').erase ',').count 'T' = l.count 'T' - 1 := by
  rw [List.count_erase_of_ne (by decide), List.count_erase_self]

theorem count_comma_strip (l : List Char) :
    ((l.erase 'T').erase ',').count ',' = l.count ',' - 1 := by
  rw [List.count_erase_self, List.count_erase_of_ne (by decide)]

theorem strip_fixed_iff (m : List Char) :
    (m.erase 'T').erase ',' = m ↔ 'T' ∉ m ∧ ',' ∉ m := by
  constructor
  · intro h
    have hlen := congrArg List.length h
    by_cases h1 : 'T' ∈ m
    · exfalso
      have a1 : (m.erase 'T').length = m.length - 1 := List.length_erase_of_mem h1
      have a2 : ((m.erase 'T').erase ',').length ≤ (m.erase 'T').length :=
        List.length_erase_le _ _
      have a3 : 0 < m.length := List.length_pos_of_mem h1
      omega
    · rw [List.erase_of_not_mem h1] at hlen
      refine ⟨h1, fun h2 => ?_⟩
      have a1 : (m.erase ',').length = m.length - 1 := List.length_erase_of_mem h2
      have a3 : 0 < m.length := List.length_pos_of_mem h2
      omega
  · rintro ⟨h1, h2⟩
    rw [List.erase_of_not_mem h1, List.erase_of_not_mem h2]

/-- C3: `formatCellData` returns a value that is not a string unchanged; for a
string it returns the text with the first "T" erased and then the first ","
erased, all other characters kept in order (`List.erase` removes the first
occurrence only), so that the result still holds all but one of the "T"s and
all but one of the commas of the input. -/
theorem formatCellData_first_occurrence_only (cell : Cell) :
    formatCellData cell =
      (match cell with
        | Cell.string s => Cell.string (String.mk ((s.data.erase 'T').erase ','))
        | c => c) ∧
    (∀ s : String, ∃ t : String, formatCellData (Cell.string s) = Cell.string t ∧
      t.data.count 'T' = s.data.count 'T' - 1 ∧
      t.data.count ',' = s.data.count ',' - 1) := by
  refine ⟨?_, fun s => ⟨_, formatCellData_string s, count_T_strip _, count_comma_strip _⟩⟩
  cases cell with
  | string s => exact formatCellData_string s
  | undefined => rfl
  | null => rfl
  | boolean b => rfl
  | number n => rfl

/-- C5, as stated, fails: the value "1,000,000" is normalised to "1000,000",
which is normalised again to "1000000". -/
theorem formatCellData_not_idempotent :
    formatCellData (formatCellData (Cell.string "1,000,000")) ≠
      formatCellData (Cell.string "1,000,000") := by
  decide

/-- C5, amended: normalising twice gives the same value as normalising once
exactly for the values that are not strings and for the strings with at most
one "T" and at most one ",". -/
theorem formatCellData_idempotent_iff (cell : Cell) :
    formatCellData (formatCellData cell) = formatCellData cell ↔
      (match cell with
        | Cell.string s => s.data.count 'T' ≤ 1 ∧ s.data.count ',' ≤ 1
        | _ => True) := by
  cases cell with
  | string s =>
    rw [formatCellData_string, formatCellData_string]
    simp only [Cell.string.injEq, string_mk_inj]
    rw [strip_fixed_iff, ← List.count_eq_zero, ← List.count_eq_zero, count_T_strip,
      count_comma_strip]
    omega
  | undefined => simp [formatCellData]
  | null => simp [formatCellData]
  | boolean b => simp [formatCellData]
  | number n => simp [formatCellData]

/-! ## Array.prototype.sort: the result is a permutation -/

section ArraySortPerm

variable {α : Type}

theorem binaryInsert_perm (comparefn : α → α → Int) (sorted : List α) (pivot : α) :
    (binaryInsert comparefn sorted pivot).Perm (pivot :: sorted) := by
  unfold binaryInsert
  refine List.perm_middle.trans ?_
  rw [List.take_append_drop]

theorem binaryInsertionSort_perm (comparefn : α → α → Int) (rest : List α) :
    ∀ run : List α, (binaryInsertionSort comparefn run rest).Perm (run ++ rest) := by
  induction rest with
  | nil => intro run; simp [binaryInsertionSort]
  | cons p rest ih =>
    intro run
    have h1 := ih (binaryInsert comparefn run p)
    have h2 : (binaryInsert comparefn run p ++ rest).Perm (run ++ p :: rest) :=
      ((binaryInsert_perm comparefn run p).append_right rest).trans
        List.perm_middle.symm
    exact h1.trans h2

theorem countAndMakeRun_perm (comparefn : α → α → Int) (a : List α) :
    ((countAndMakeRun comparefn a).1 ++ (countAndMakeRun comparefn a).2).Perm a := by
  match a with
  | [] => simp [countAndMakeRun]
  | [x] => simp [countAndMakeRun]
  | x :: y :: rest =>
    simp only [countAndMakeRun]
    split
    · refine ((List.reverse_perm _).append_right _).trans ?_
      rw [List.take_append_drop]
    · rw [List.take_append_drop]

theorem arraySort_perm (comparefn : α → α → Int) (a : List α) :
    (arraySort comparefn a).Perm a := by
  unfold arraySort
  split
  · exact List.Perm.refl _
  · exact (binaryInsertionSort_perm comparefn _ _).trans (countAndMakeRun_perm comparefn a)

theorem arraySort_length (comparefn : α → α → Int) (a : List α) :
    (arraySort comparefn a).length = a.length :=
  (arraySort_perm comparefn a).length_eq

end ArraySortPerm

/-! ## Array.prototype.sort: a constantly negative comparator -/

section ArraySortNegative

variable {α : Type}

theorem countRun_descending_all (comparefn : α → α → Int) (rest : List α) :
    ∀ prev : α, (∀ x ∈ prev :: rest, ∀ y ∈ prev :: rest, comparefn x y < 0) →
      countRun comparefn true prev rest = rest.length := by
  induction rest with
  | nil => intro prev _; rfl
  | cons x rest ih =>
    intro prev hneg
    have h : ¬ comparefn x prev ≥ 0 := not_le.mpr (hneg x (by simp) prev (by simp))
    have h2 := ih x (fun u hu v hv =>
      hneg u (List.mem_cons_of_mem _ hu) v (List.mem_cons_of_mem _ hv))
    simp [countRun, h, h2]

/-- When every comparison is negative the whole array is one strictly
descending run, which `CountAndMakeRun` reverses; nothing is left to insert. -/
theorem arraySort_of_negative (comparefn : α → α → Int) (a : List α)
    (hneg : ∀ x ∈ a, ∀ y ∈ a, comparefn x y < 0) :
    arraySort comparefn a = a.reverse := by
  match a with
  | [] => simp [arraySort]
  | [x] => simp [arraySort]
  | x :: y :: rest =>
    have hlen : ¬ (x :: y :: rest).length < 2 := by simp
    have hrun := countRun_descending_all comparefn rest y (fun u hu v hv =>
      hneg u (List.mem_cons_of_mem _ hu) v (List.mem_cons_of_mem _ hv))
    simp only [arraySort, hlen, if_false, countAndMakeRun, hneg y (by simp) x (by simp),
      decide_True, if_true, hrun]
    have h2 : 2 + rest.length = (x :: y :: rest).length := by simp; omega
    rw [h2, List.take_length, List.drop_length]
    simp [binaryInsertionSort]

end ArraySortNegative

/-! ## Array.prototype.sort: a comparator that follows a strict ranking

When the elements have pairwise distinct ranks in a linear order and
`comparefn x y < 0` holds exactly when `x` ranks below `y`, the result is
strictly increasing in rank. -/

section ArraySortSorted

variable {α M : Type} [LinearOrder M]

theorem pairwise_getElem? {R : α → α → Prop} {a : List α} (hs : a.Pairwise R)
    {i j : Nat} (hij : i < j) {x y : α} (hx : a[i]? = some x) (hy : a[j]? = some y) :
    R x y := by
  obtain ⟨hi, rfl⟩ := List.getElem?_eq_some.mp hx
  obtain ⟨hj, rfl⟩ := List.getElem?_eq_some.mp hy
  exact List.pairwise_iff_getElem.mp hs i j hi hj hij

theorem binarySearch_spec (comparefn : α → α → Int) (rank : α → M) (pivot : α)
    (a : List α) (hs : a.Pairwise (fun x y => rank x < rank y))
    (hc : ∀ e ∈ a, (comparefn pivot e < 0 ↔ rank pivot < rank e))
    (hne : ∀ e ∈ a, rank e ≠ rank pivot) :
    ∀ fuel left right, right - left ≤ fuel → left ≤ right → right ≤ a.length →
      (∀ i e, i < left → a[i]? = some e → rank e < rank pivot) →
      (∀ i e, right ≤ i → a[i]? = some e → rank pivot < rank e) →
      (∀ i e, i < binarySearch comparefn pivot a fuel left right → a[i]? = some e →
        rank e < rank pivot) ∧
      (∀ i e, binarySearch comparefn pivot a fuel left right ≤ i → a[i]? = some e →
        rank pivot < rank e) := by
  intro fuel
  induction fuel with
  | zero =>
    intro left right _ _ _ hlo hhi
    have hl : left = right := by omega
    subst hl
    exact ⟨hlo, hhi⟩
  | succ fuel ih =>
    intro left right hf hlr hr hlo hhi
    by_cases hlt : left < right
    · have hmid : left + (right - left) / 2 < a.length := by omega
      have he : a[left + (right - left) / 2]? = some a[left + (right - left) / 2] :=
        List.getElem?_eq_getElem hmid
      generalize a[left + (right - left) / 2] = e at he
      have hem : e ∈ a := List.mem_iff_getElem?.mpr ⟨_, he⟩
      by_cases hcmp : comparefn pivot e < 0
      · have hstep : binarySearch comparefn pivot a (fuel + 1) left right =
            binarySearch comparefn pivot a fuel left (left + (right - left) / 2) := by
          simp [binarySearch, hlt, he, hcmp]
        rw [hstep]
        have hpe := (hc e hem).mp hcmp
        refine ih left _ (by omega) (by omega) (by omega) hlo ?_
        intro i e' hi he'
        rcases Nat.eq_or_lt_of_le hi with h | h
        · subst h
          rw [he] at he'
          cases he'
          exact hpe
        · exact lt_trans hpe (pairwise_getElem? hs h he he')
      · have hstep : binarySearch comparefn pivot a (fuel + 1) left right =
            binarySearch comparefn pivot a fuel (left + (right - left) / 2 + 1) right := by
          simp [binarySearch, hlt, he, hcmp]
        rw [hstep]
        have hpe : rank e < rank pivot :=
          lt_of_le_of_ne (not_lt.mp (fun h => hcmp ((hc e hem).mpr h))) (hne e hem)
        refine ih _ right (by omega) (by omega) hr ?_ hhi
        intro i e' hi he'
        rcases Nat.eq_or_lt_of_le (Nat.lt_succ_iff.mp hi) with h | h
        · subst h
          rw [he] at he'
          cases he'
          exact hpe
        · exact lt_trans (pairwise_getElem? hs h he' he) hpe
    · have hl : left = right := by omega
      subst hl
      have hstep : binarySearch comparefn pivot a (fuel + 1) left left = left := by
        simp [binarySearch]
      rw [hstep]
      exact ⟨hlo, hhi⟩

theorem binaryInsert_sorted (comparefn : α → α → Int) (rank : α → M) (pivot : α)
    (a : List α) (hs : a.Pairwise (fun x y => rank x < rank y))
    (hc : ∀ e ∈ a, (comparefn pivot e < 0 ↔ rank pivot < rank e))
    (hne : ∀ e ∈ a, rank e ≠ rank pivot) :
    (binaryInsert comparefn a pivot).Pairwise (fun x y => rank x < rank y) := by
  obtain ⟨hlo, hhi⟩ := binarySearch_spec comparefn rank pivot a hs hc hne a.length 0
    a.length (by omega) (by omega) le_rfl (fun i e hi _ => absurd hi (Nat.not_lt_zero i))
    (fun i e hi he => by rw [List.getElem?_eq_none hi] at he; cases he)
  unfold binaryInsert
  generalize binarySearch comparefn pivot a a.length 0 a.length = k at hlo hhi
  have htake : ∀ x ∈ a.take k, rank x < rank pivot := by
    intro x hx
    obtain ⟨i, hi⟩ := List.mem_iff_getElem?.mp hx
    rw [List.getElem?_take] at hi
    by_cases hik : i < k
    · rw [if_pos hik] at hi
      exact hlo i x hik hi
    · rw [if_neg hik] at hi
      cases hi
  have hdrop : ∀ y ∈ a.drop k, rank pivot < rank y := by
    intro y hy
    obtain ⟨j, hj⟩ := List.mem_iff_getElem?.mp hy
    rw [List.getElem?_drop] at hj
    exact hhi (k + j) y (by omega) hj
  rw [List.pairwise_append]
  refine ⟨hs.sublist (List.take_sublist _ _), ?_, ?_⟩
  · rw [List.pairwise_cons]
    exact ⟨hdrop, hs.sublist (List.drop_sublist _ _)⟩
  · intro x hx y hy
    rcases List.mem_cons.mp hy with h | h
    · subst h
      exact htake x hx
    · exact lt_trans (htake x hx) (hdrop y h)

theorem binaryInsertionSort_sorted (comparefn : α → α → Int) (rank : α → M)
    (rest : List α) :
    ∀ run : List α, run.Pairwise (fun x y => rank x < rank y) →
      (∀ x ∈ run ++ rest, ∀ y ∈ run ++ rest, rank x ≠ rank y →
        (comparefn x y < 0 ↔ rank x < rank y)) →
      (run ++ rest).Pairwise (fun x y => rank x ≠ rank y) →
      (binaryInsertionSort comparefn run rest).Pairwise (fun x y => rank x < rank y) := by
  induction rest with
  | nil => intro run hs _ _; simpa [binaryInsertionSort] using hs
  | cons p rest ih =>
    intro run hs hc hd
    have hperm : (binaryInsert comparefn run p ++ rest).Perm (run ++ p :: rest) :=
      ((binaryInsert_perm comparefn run p).append_right rest).trans List.perm_middle.symm
    have hne : ∀ e ∈ run, rank e ≠ rank p := by
      intro e he
      exact (List.pairwise_append.mp hd).2.2 e he p (List.mem_cons_self _ _)
    have hcp : ∀ e ∈ run, (comparefn p e < 0 ↔ rank p < rank e) := by
      intro e he
      exact hc p (by simp) e (by simp [he]) (fun h => hne e he h.symm)
    have hs2 := binaryInsert_sorted comparefn rank p run hs hcp hne
    have hmem : ∀ x, x ∈ binaryInsert comparefn run p ++ rest ↔ x ∈ run ++ p :: rest :=
      fun x => hperm.mem_iff
    refine ih (binaryInsert comparefn run p) hs2 ?_ ?_
    · intro x hx y hy
      exact hc x ((hmem x).mp hx) y ((hmem y).mp hy)
    · exact (hperm.pairwise_iff (fun h => Ne.symm h)).mpr hd

theorem countRun_ascending (comparefn : α → α → Int) (rank : α → M) (rest : List α) :
    ∀ prev : α,
      (∀ x ∈ prev :: rest, ∀ y ∈ prev :: rest, rank x ≠ rank y →
        (comparefn x y < 0 ↔ rank x < rank y)) →
      (prev :: rest).Pairwise (fun x y => rank x ≠ rank y) →
      List.Chain (fun x y => rank x < rank y) prev
        (rest.take (countRun comparefn false prev rest)) := by
  induction rest with
  | nil => intro prev _ _; simp [countRun]
  | cons x rest ih =>
    intro prev hc hd
    by_cases hcmp : comparefn x prev < 0
    · simp [countRun, hcmp]
    · have hne : rank prev ≠ rank x := (List.pairwise_cons.mp hd).1 x (by simp)
      have hlt : rank prev < rank x :=
        lt_of_le_of_ne
          (not_lt.mp (fun h => hcmp ((hc x (by simp) prev (by simp) hne.symm).mpr h))) hne
      simp only [countRun, hcmp, if_false, Bool.false_eq_true, List.take_succ_cons]
      refine List.Chain.cons hlt (ih x ?_ (List.pairwise_cons.mp hd).2)
      intro a ha b hb
      exact hc a (List.mem_cons_of_mem _ ha) b (List.mem_cons_of_mem _ hb)

theorem countRun_descending (comparefn : α → α → Int) (rank : α → M) (rest : List α) :
    ∀ prev : α,
      (∀ x ∈ prev :: rest, ∀ y ∈ prev :: rest, rank x ≠ rank y →
        (comparefn x y < 0 ↔ rank x < rank y)) →
      (prev :: rest).Pairwise (fun x y => rank x ≠ rank y) →
      List.Chain (fun x y => rank y < rank x) prev
        (rest.take (countRun comparefn true prev rest)) := by
  induction rest with
  | nil => intro prev _ _; simp [countRun]
  | cons x rest ih =>
    intro prev hc hd
    by_cases hcmp : comparefn x prev ≥ 0
    · simp [countRun, hcmp]
    · have hne : rank prev ≠ rank x := (List.pairwise_cons.mp hd).1 x (by simp)
      have hlt : rank x < rank prev :=
        (hc x (by simp) prev (by simp) hne.symm).mp (not_le.mp hcmp)
      simp only [countRun, hcmp, if_false, if_true, List.take_succ_cons]
      refine List.Chain.cons hlt (ih x ?_ (List.pairwise_cons.mp hd).2)
      intro a ha b hb
      exact hc a (List.mem_cons_of_mem _ ha) b (List.mem_cons_of_mem _ hb)

theorem countAndMakeRun_sorted (comparefn : α → α → Int) (rank : α → M) (a : List α)
    (hc : ∀ x ∈ a, ∀ y ∈ a, rank x ≠ rank y → (comparefn x y < 0 ↔ rank x < rank y))
    (hd : a.Pairwise (fun x y => rank x ≠ rank y)) :
    (countAndMakeRun comparefn a).1.Pairwise (fun x y => rank x < rank y) := by
  match a with
  | [] => simp [countAndMakeRun]
  | [x] => simp [countAndMakeRun]
  | x :: y :: rest =>
    have hne : rank x ≠ rank y := (List.pairwise_cons.mp hd).1 y (by simp)
    have hc2 : ∀ u ∈ y :: rest, ∀ v ∈ y :: rest, rank u ≠ rank v →
        (comparefn u v < 0 ↔ rank u < rank v) := fun u hu v hv =>
      hc u (List.mem_cons_of_mem _ hu) v (List.mem_cons_of_mem _ hv)
    have hd2 := (List.pairwise_cons.mp hd).2
    have htake : ∀ n, List.take (2 + n) (x :: y :: rest) = x :: y :: rest.take n := by
      intro n
      rw [Nat.add_comm]
      rfl
    simp only [countAndMakeRun, htake]
    by_cases hcmp : comparefn y x < 0
    · have hyx : rank y < rank x := (hc y (by simp) x (by simp) hne.symm).mp hcmp
      haveI : IsTrans α (fun u v => rank v < rank u) := ⟨fun _ _ _ h1 h2 => lt_trans h2 h1⟩
      have hchain : List.Chain (fun u v => rank v < rank u) x
          (y :: rest.take (countRun comparefn true y rest)) :=
        List.Chain.cons hyx (countRun_descending comparefn rank rest y hc2 hd2)
      simp only [hcmp, decide_True, if_true]
      rw [List.pairwise_reverse]
      exact List.chain_iff_pairwise.mp hchain
    · have hxy : rank x < rank y :=
        lt_of_le_of_ne
          (not_lt.mp (fun h => hcmp ((hc y (by simp) x (by simp) hne.symm).mpr h))) hne
      haveI : IsTrans α (fun u v => rank u < rank v) := ⟨fun _ _ _ h1 h2 => lt_trans h1 h2⟩
      have hchain : List.Chain (fun u v => rank u < rank v) x
          (y :: rest.take (countRun comparefn false y rest)) :=
        List.Chain.cons hxy (countRun_ascending comparefn rank rest y hc2 hd2)
      simp only [hcmp, decide_False, if_false, Bool.false_eq_true]
      exact List.chain_iff_pairwise.mp hchain

theorem arraySort_sorted (comparefn : α → α → Int) (rank : α → M) (a : List α)
    (hc : ∀ x ∈ a, ∀ y ∈ a, rank x ≠ rank y → (comparefn x y < 0 ↔ rank x < rank y))
    (hd : a.Pairwise (fun x y => rank x ≠ rank y)) :
    (arraySort comparefn a).Pairwise (fun x y => rank x < rank y) := by
  unfold arraySort
  split
  · match a with
    | [] => exact List.Pairwise.nil
    | [x] => exact List.pairwise_singleton _ _
    | x :: y :: rest =>
      rename_i h
      simp only [List.length_cons] at h
      omega
  · have hperm := countAndMakeRun_perm comparefn a
    refine binaryInsertionSort_sorted comparefn rank _ _
      (countAndMakeRun_sorted comparefn rank a hc hd) ?_ ?_
    · intro x hx y hy
      exact hc x (hperm.mem_iff.mp hx) y (hperm.mem_iff.mp hy)
    · exact (hperm.pairwise_iff (fun h => Ne.symm h)).mpr hd

/-- Two strictly increasing arrangements of the same elements are equal. -/
theorem eq_of_perm_of_increasing (rank : α → M) {l₁ l₂ : List α} (hp : l₁.Perm l₂)
    (h₁ : l₁.Pairwise (fun x y => rank x < rank y))
    (h₂ : l₂.Pairwise (fun x y => rank x < rank y)) : l₁ = l₂ := by
  haveI : IsAntisymm α (fun x y => rank x < rank y) :=
    ⟨fun _ _ h1 h2 => absurd h1 (lt_asymm h2)⟩
  exact List.eq_of_perm_of_sorted hp h₁ h₂

end ArraySortSorted

/-! ## Sort engine -/

theorem rankOf_ne {N : Type} {u v : Option N} (h : u ≠ v) (hu : u.isSome) (hv : v.isSome) :
    rankOf u ≠ rankOf v := by
  cases u with
  | none => simp at hu
  | some a =>
    cases v with
    | none => simp at hv
    | some b =>
      intro e
      apply h
      simp only [rankOf, WithBot.coe_inj] at e
      rw [e]

section SortResultsProps

variable {N : Type} [LinearOrder N]

theorem sortResults_perm (toNumber : Cell → Option N) (players : List Player)
    (key : String) (sortOrder : Nat) :
    (sortResults toNumber players key sortOrder).Perm players :=
  arraySort_perm _ _

theorem sortResults_length (toNumber : Cell → Option N) (players : List Player)
    (key : String) (sortOrder : Nat) :
    (sortResults toNumber players key sortOrder).length = players.length :=
  arraySort_length _ _

theorem rankOf_lt_iff_jsGt {u v : Option N} (hu : u.isSome) (hv : v.isSome) :
    rankOf u < rankOf v ↔ jsGt v u = true := by
  cases u with
  | none => simp at hu
  | some a =>
    cases v with
    | none => simp at hv
    | some b => simp [rankOf, jsGt]

/-- With `sortOrder` different from 0 the comparator is negative exactly when
the first record has the smaller number (numbers distinct). -/
theorem comparePlayers_succ_neg_iff (toNumber : Cell → Option N) (key : String) (k : Nat)
    (x y : Player) (hx : (sortValue toNumber key x).isSome)
    (hy : (sortValue toNumber key y).isSome)
    (hne : rankOf (sortValue toNumber key x) ≠ rankOf (sortValue toNumber key y)) :
    comparePlayers toNumber key (k + 1) x y < 0 ↔
      rankOf (sortValue toNumber key x) < rankOf (sortValue toNumber key y) := by
  obtain ⟨a, hu⟩ := Option.isSome_iff_exists.mp hx
  obtain ⟨b, hv⟩ := Option.isSome_iff_exists.mp hy
  have hu2 : toNumber (formatCellData (x.get key)) = some a := hu
  have hv2 : toNumber (formatCellData (y.get key)) = some b := hv
  rw [hu, hv] at hne ⊢
  have hab : a ≠ b := fun e => hne (by rw [e])
  simp only [comparePlayers, hu2, hv2, Nat.succ_ne_zero, if_false, jsGt, rankOf,
    WithBot.coe_lt_coe, decide_eq_true_eq]
  by_cases h : b < a
  · simp [h, not_lt_of_gt h]
  · simp [h, lt_of_le_of_ne (not_lt.mp h) hab]

/-- With `sortOrder = 0` the comparator is negative exactly when the first
record has the larger number. -/
theorem comparePlayers_zero_neg_iff (toNumber : Cell → Option N) (key : String)
    (x y : Player) (hx : (sortValue toNumber key x).isSome)
    (hy : (sortValue toNumber key y).isSome) :
    comparePlayers toNumber key 0 x y < 0 ↔
      OrderDual.toDual (rankOf (sortValue toNumber key x)) <
        OrderDual.toDual (rankOf (sortValue toNumber key y)) := by
  obtain ⟨a, hu⟩ := Option.isSome_iff_exists.mp hx
  obtain ⟨b, hv⟩ := Option.isSome_iff_exists.mp hy
  have hu2 : toNumber (formatCellData (x.get key)) = some a := hu
  have hv2 : toNumber (formatCellData (y.get key)) = some b := hv
  rw [hu, hv]
  simp only [comparePlayers, hu2, hv2, if_true, jsLe, rankOf, OrderDual.toDual_lt_toDual,
    WithBot.coe_lt_coe, decide_eq_true_eq]
  by_cases h : a ≤ b
  · simp [h]
  · simp [h, not_le.mp h]

/-- With a `sortOrder` other than 0 (the value 1 of the component), records
whose compared values are pairwise distinct numbers come out with each
earlier record's number below each later record's: increasing order. -/
theorem sortResults_succ_increasing (toNumber : Cell → Option N) (players : List Player)
    (key : String) (k : Nat)
    (hnum : ∀ p ∈ players, (sortValue toNumber key p).isSome)
    (hdist : players.Pairwise
      (fun p q => sortValue toNumber key p ≠ sortValue toNumber key q)) :
    (sortResults toNumber players key (k + 1)).Pairwise
      (fun p q => rankOf (sortValue toNumber key p) < rankOf (sortValue toNumber key q)) := by
  refine arraySort_sorted _ (fun p => rankOf (sortValue toNumber key p)) players ?_ ?_
  · intro x hx y hy hne
    exact comparePlayers_succ_neg_iff toNumber key k x y (hnum x hx) (hnum y hy) hne
  · exact List.Pairwise.imp_of_mem (fun hx hy h => rankOf_ne h (hnum _ hx) (hnum _ hy)) hdist

/-- With `sortOrder = 0`, records whose compared values are pairwise distinct
numbers come out with each earlier record's number above each later record's:
decreasing order. -/
theorem sortResults_zero_decreasing (toNumber : Cell → Option N) (players : List Player)
    (key : String)
    (hnum : ∀ p ∈ players, (sortValue toNumber key p).isSome)
    (hdist : players.Pairwise
      (fun p q => sortValue toNumber key p ≠ sortValue toNumber key q)) :
    (sortResults toNumber players key 0).Pairwise
      (fun p q => rankOf (sortValue toNumber key q) < rankOf (sortValue toNumber key p)) := by
  have h := arraySort_sorted (comparePlayers toNumber key 0)
    (fun p => OrderDual.toDual (rankOf (sortValue toNumber key p))) players ?_ ?_
  · exact h.imp (fun hpq => OrderDual.toDual_lt_toDual.mp hpq)
  · intro x hx y hy _
    exact comparePlayers_zero_neg_iff toNumber key x y (hnum x hx) (hnum y hy)
  · refine List.Pairwise.imp_of_mem (fun hx hy h => ?_) hdist
    intro e
    exact rankOf_ne h (hnum _ hx) (hnum _ hy) (OrderDual.toDual.injective e)

/-- The comparator of the unset key: when the compared value of every record
is `NaN`, both tests `<=` and `>` fail and the comparator answers -1, in either
direction. -/
theorem comparePlayers_of_nan (toNumber : Cell → Option N) (key : String) (sortOrder : Nat)
    (x y : Player) (hx : sortValue toNumber key x = none) :
    comparePlayers toNumber key sortOrder x y = -1 := by
  have hx2 : toNumber (formatCellData (x.get key)) = none := hx
  by_cases h : sortOrder = 0 <;> simp [comparePlayers, h, hx2, jsLe, jsGt]

/-- C2, amended: with the sort key unset (the empty string, a field that no
record has, so that every compared value is `Number(undefined)`, which is
`NaN`), every comparison answers -1 in either direction and `sortResults`
returns the records in the reverse of their original order. -/
theorem sortResults_unset_key_reverses (toNumber : Cell → Option N)
    (players : List Player) (sortOrder : Nat)
    (hnan : toNumber Cell.undefined = none)
    (hkey : ∀ p ∈ players, p.get "" = Cell.undefined) :
    sortResults toNumber players "" sortOrder = players.reverse := by
  refine arraySort_of_negative _ players ?_
  intro x hx y _
  have hv : sortValue toNumber "" x = none := by
    unfold sortValue
    rw [hkey x hx]
    exact hnan
  rw [comparePlayers_of_nan toNumber "" sortOrder x y hv]
  decide

/-- C4: for records whose compared values are pairwise distinct numbers, the
reverse of the result with `sortOrder = 0` is the result with `sortOrder = 1`;
this also holds when the second call receives the array as the first call
left it (`sort` works in place). -/
theorem sortResults_reverse_zero_eq_one (toNumber : Cell → Option N)
    (players : List Player) (key : String)
    (hnum : ∀ p ∈ players, (sortValue toNumber key p).isSome)
    (hdist : players.Pairwise
      (fun p q => sortValue toNumber key p ≠ sortValue toNumber key q)) :
    (sortResults toNumber players key 0).reverse = sortResults toNumber players key 1 ∧
    (sortResults toNumber players key 0).reverse =
      sortResults toNumber (sortResults toNumber players key 0) key 1 := by
  have hp0 := sortResults_perm toNumber players key 0
  have hd0 := sortResults_zero_decreasing toNumber players key hnum hdist
  have hrev : (sortResults toNumber players key 0).reverse.Pairwise
      (fun p q => rankOf (sortValue toNumber key p) < rankOf (sortValue toNumber key q)) :=
    List.pairwise_reverse.mpr hd0
  constructor
  · exact eq_of_perm_of_increasing (fun p => rankOf (sortValue toNumber key p))
      (((List.reverse_perm _).trans hp0).trans (sortResults_perm toNumber players key 1).symm)
      hrev (sortResults_succ_increasing toNumber players key 0 hnum hdist)
  · have hnum2 : ∀ p ∈ sortResults toNumber players key 0,
        (sortValue toNumber key p).isSome := fun p hp => hnum p (hp0.mem_iff.mp hp)
    have hdist2 : (sortResults toNumber players key 0).Pairwise
        (fun p q => sortValue toNumber key p ≠ sortValue toNumber key q) :=
      (hp0.pairwise_iff (fun h => Ne.symm h)).mpr hdist
    exact eq_of_perm_of_increasing (fun p => rankOf (sortValue toNumber key p))
      ((List.reverse_perm _).trans (sortResults_perm toNumber _ key 1).symm)
      hrev (sortResults_succ_increasing toNumber _ key 0 hnum2 hdist2)

end SortResultsProps

/-- C1: the records of the example, with `Yds` values "1,200", "980T", "1,050",
sorted by `Yds` with `sortOrder = 1` (the value the source documents as
descending) come out in increasing order 980T, 1,050, 1,200. -/
theorem sortResults_one_yds_example :
    sortResults integerToNumber
      [mkPlayer "A" "1,200", mkPlayer "B" "980T", mkPlayer "C" "1,050"] "Yds" 1 =
      [mkPlayer "B" "980T", mkPlayer "C" "1,050", mkPlayer "A" "1,200"] := by
  decide

/-- C2, as stated, fails: two records sorted with the key unset come back in
the other order. -/
theorem sortResults_unset_key_not_identity :
    sortResults integerToNumber [mkPlayer "A" "1,200", mkPlayer "B" "980T"] "" 0 ≠
      [mkPlayer "A" "1,200", mkPlayer "B" "980T"] := by
  decide

/-- The unset key on the three records of the example. -/
theorem sortResults_unset_key_reverses_witness :
    (integerToNumber Cell.undefined = none ∧
      ∀ p ∈ [mkPlayer "A" "1,200", mkPlayer "B" "980T", mkPlayer "C" "1,050"],
        p.get "" = Cell.undefined) ∧
    sortResults integerToNumber
      [mkPlayer "A" "1,200", mkPlayer "B" "980T", mkPlayer "C" "1,050"] "" 1 =
      [mkPlayer "C" "1,050", mkPlayer "B" "980T", mkPlayer "A" "1,200"] :=
  ⟨⟨rfl, by decide⟩,
    sortResults_unset_key_reverses integerToNumber
      [mkPlayer "A" "1,200", mkPlayer "B" "980T", mkPlayer "C" "1,050"] 1 rfl (by decide)⟩

/-- The two directions on the three records of the example. -/
theorem sortResults_reverse_zero_eq_one_witness :
    ((∀ p ∈ [mkPlayer "A" "1,200", mkPlayer "B" "980T", mkPlayer "C" "1,050"],
        (sortValue integerToNumber "Yds" p).isSome) ∧
      [mkPlayer "A" "1,200", mkPlayer "B" "980T", mkPlayer "C" "1,050"].Pairwise
        (fun p q => sortValue integerToNumber "Yds" p ≠ sortValue integerToNumber "Yds" q)) ∧
    (sortResults integerToNumber
        [mkPlayer "A" "1,200", mkPlayer "B" "980T", mkPlayer "C" "1,050"] "Yds" 0).reverse =
      sortResults integerToNumber
        [mkPlayer "A" "1,200", mkPlayer "B" "980T", mkPlayer "C" "1,050"] "Yds" 1 :=
  ⟨⟨by decide, by decide⟩,
    (sortResults_reverse_zero_eq_one integerToNumber
      [mkPlayer "A" "1,200", mkPlayer "B" "980T", mkPlayer "C" "1,050"] "Yds"
      (by decide) (by decide)).1⟩

/-! ## Pagination -/

section PaginationProps

variable {N : Type} [LinearOrder N]

theorem sortedResults_length (toNumber : Cell → Option N) (s : DashboardState) :
    (sortedResults toNumber s).length = s.results.length :=
  sortResults_length toNumber _ _ _

theorem disableNext_eq_false_iff (toNumber : Cell → Option N) (s : DashboardState) :
    disableNext toNumber s = false ↔
      s.page ≠ s.maxPage ∧ 0 < s.results.length ∧ s.entries ≤ s.results.length := by
  unfold disableNext
  rw [sortedResults_length]
  simp only [Bool.or_eq_false_iff, decide_eq_false_iff_not, not_lt]
  constructor
  · rintro ⟨⟨h1, h2⟩, h3⟩
    exact ⟨h1, Nat.pos_of_ne_zero h2, h3⟩
  · rintro ⟨h1, h2, h3⟩
    exact ⟨⟨h1, Nat.pos_iff_ne_zero.mp h2⟩, h3⟩

/-- C6, amended: `disableNext` is false exactly when `page` differs from
`maxPage`, the page is not empty and holds at least `entries` records; a click
on Next moves to the next page exactly when `page < maxPage`, the page is not
empty and holds at least `entries` records (the test `page < maxPage` is made
by the click handler); and `disableNext` is never false on a page with fewer
than `entries` records. -/
theorem next_available_iff (toNumber : Cell → Option N) (s : DashboardState) :
    (disableNext toNumber s = false ↔
      s.page ≠ s.maxPage ∧ 0 < s.results.length ∧ s.entries ≤ s.results.length) ∧
    ((clickNext toNumber s).page = s.page + 1 ↔
      s.page < s.maxPage ∧ 0 < s.results.length ∧ s.entries ≤ s.results.length) ∧
    ¬ (s.results.length < s.entries ∧ disableNext toNumber s = false) := by
  have h := disableNext_eq_false_iff toNumber s
  refine ⟨h, ?_, ?_⟩
  · unfold clickNext nextOnClick
    cases hd : disableNext toNumber s with
    | true =>
      have hn : ¬ (s.page ≠ s.maxPage ∧ 0 < s.results.length ∧ s.entries ≤ s.results.length) :=
        fun hc => by rw [h.mpr hc] at hd; cases hd
      simp only [if_true]
      constructor
      · intro e; omega
      · rintro ⟨h1, h2⟩; exact absurd ⟨ne_of_lt h1, h2⟩ hn
    | false =>
      have hc := h.mp hd
      simp only [Bool.false_eq_true, if_false]
      by_cases hlt : s.page < s.maxPage
      · simp only [hlt, if_true, true_and]
        exact ⟨fun _ => hc.2, fun _ => trivial⟩
      · simp only [hlt, if_false, false_and, iff_false]
        omega
  · rintro ⟨h1, h2⟩
    have := (h.mp h2).2.2
    omega

/-- C6, as stated, fails: in a state with `page = 2`, `maxPage = 1` and a full
page of ten records, `disableNext` is false although `page < maxPage` does not
hold. -/
theorem disableNext_false_past_last_page :
    disableNext integerToNumber pastLastPage = false ∧
      ¬ (pastLastPage.page < pastLastPage.maxPage ∧ 0 < pastLastPage.results.length ∧
        pastLastPage.entries ≤ pastLastPage.results.length) := by
  refine ⟨(disableNext_eq_false_iff integerToNumber pastLastPage).mpr ?_, ?_⟩ <;> decide

/-- C7, as stated, fails: on page 5 of 33 the page size is changed to 100; the
server answers the request for page 5 with maxPage 4 and page 5, and the fetch
success handler stores both, leaving `page = 5` above `max(maxPage, 1) = 4`. -/
theorem fetch_breaks_paginationInvariant :
    paginationInvariant fifthOfMany ∧
    paginationInvariant (changeEntries 100 fifthOfMany) ∧
    ¬ paginationInvariant (searchRequest echoServer (changeEntries 100 fifthOfMany)) := by
  unfold paginationInvariant
  decide

/-- C7, amended: the invariant `1 ≤ page ≤ max(maxPage, 1)` holds in the
initial state and is preserved by a click on Previous, a click on Next and a
change of the page size; after the fetch success handler it holds exactly when
the page and maxPage of the response themselves satisfy it. -/
theorem paginationInvariant_preserved (toNumber : Cell → Option N) (s : DashboardState)
    (h : paginationInvariant s) :
    paginationInvariant initialState ∧
    paginationInvariant (clickPrevious s) ∧
    paginationInvariant (clickNext toNumber s) ∧
    (∀ value, paginationInvariant (changeEntries value s)) ∧
    (∀ data, paginationInvariant (applyFetchData s data) ↔
      1 ≤ data.page ∧ data.page ≤ max data.maxPage 1) := by
  unfold paginationInvariant at h ⊢
  obtain ⟨h1, h2⟩ := h
  refine ⟨by decide, ?_, ?_, fun _ => ⟨h1, h2⟩, fun _ => Iff.rfl⟩
  · unfold clickPrevious previousOnClick disablePrevious
    by_cases hp : s.page = 1
    · simp only [hp, decide_True, if_true]
      exact ⟨le_refl 1, le_max_right _ _⟩
    · simp only [hp, decide_False, Bool.false_eq_true, if_false, ne_eq, not_false_eq_true,
        if_true]
      rw [le_max_iff] at h2 ⊢
      omega
  · unfold clickNext nextOnClick
    cases disableNext toNumber s with
    | true => exact ⟨h1, h2⟩
    | false =>
      simp only [Bool.false_eq_true, if_false]
      by_cases hlt : s.page < s.maxPage
      · simp only [hlt, if_true]
        rw [le_max_iff]
        omega
      · simp only [hlt, if_false]
        exact ⟨h1, h2⟩

end PaginationProps

/-- The invariant across a click on Next on the second of three pages. -/
theorem paginationInvariant_preserved_witness :
    paginationInvariant secondOfThree ∧
      paginationInvariant (clickNext integerToNumber secondOfThree) :=
  ⟨by unfold paginationInvariant; decide,
    (paginationInvariant_preserved integerToNumber secondOfThree
      (by unfold paginationInvariant; decide)).2.2.1⟩

/-! ## Fetch -/

/-- C8: when the awaited `fetchPlayers` call fails, `searchRequest` leaves the
whole component state as it was: results, page, maxPage, entries, sort key and
sort direction all keep their values. -/
theorem searchRequest_failure_keeps_state {ε : Type}
    (fetchPlayers : FetchRequest → Except ε FetchData) (s : DashboardState) (e : ε)
    (hfail : fetchPlayers { page := s.page, entries := s.entries, search := s.debouncedPS } =
      Except.error e) :
    searchRequest fetchPlayers s = s ∧
    (searchRequest fetchPlayers s).results = s.results ∧
    (searchRequest fetchPlayers s).page = s.page ∧
    (searchRequest fetchPlayers s).maxPage = s.maxPage ∧
    (searchRequest fetchPlayers s).entries = s.entries ∧
    (searchRequest fetchPlayers s).filterKey = s.filterKey ∧
    (searchRequest fetchPlayers s).sortOrder = s.sortOrder := by
  have h : searchRequest fetchPlayers s = s := by
    unfold searchRequest
    rw [hfail]
  rw [h]
  exact ⟨rfl, rfl, rfl, rfl, rfl, rfl, rfl⟩

/-- A request that fails with a network error. -/
theorem searchRequest_failure_keeps_state_witness :
    searchRequest (fun _ => (Except.error "Network Error" : Except String FetchData))
      secondOfThree = secondOfThree :=
  (searchRequest_failure_keeps_state
    (fun _ => (Except.error "Network Error" : Except String FetchData)) secondOfThree
    "Network Error" rfl).1

/-- C9, as stated, fails: when the answer to the request issued first arrives
after the answer to the request issued second, it replaces the results, the
page and maxPage: the state shows the answer of the older request. -/
theorem stale_response_overwrites :
    firstIssued.seq < secondIssued.seq ∧
    (applyCompletions initialState [secondIssued, firstIssued]).results =
      firstIssued.data.players ∧
    (applyCompletions initialState [secondIssued, firstIssued]).page =
      firstIssued.data.page ∧
    (applyCompletions initialState [secondIssued, firstIssued]).results ≠
      (applyCompletions initialState [secondIssued]).results ∧
    (applyCompletions initialState [secondIssued, firstIssued]).page ≠
      (applyCompletions initialState [secondIssued]).page := by
  decide

/-- C9, amended: every response that resolves is applied, in order of arrival:
after any sequence of arrivals the results, maxPage and page are those of the
response that arrived last, whatever its rank in the order of issue, and the
other fields are those of the state before. -/
theorem applyCompletions_last_arrival (s : DashboardState) (arrivals : List Completion)
    (c : Completion) :
    applyCompletions s (arrivals ++ [c]) =
      { s with results := c.data.players, maxPage := c.data.maxPage, page := c.data.page } := by
  have hfields : ∀ (l : List Completion) (st : DashboardState),
      (applyCompletions st l).entries = st.entries ∧
      (applyCompletions st l).playerSearch = st.playerSearch ∧
      (applyCompletions st l).debouncedPS = st.debouncedPS ∧
      (applyCompletions st l).filterKey = st.filterKey ∧
      (applyCompletions st l).sortOrder = st.sortOrder := by
    intro l
    induction l with
    | nil => intro st; exact ⟨rfl, rfl, rfl, rfl, rfl⟩
    | cons d l ih =>
      intro st
      have := ih (applyFetchData st d.data)
      simpa [applyCompletions, applyFetchData] using this
  have happ : applyCompletions s (arrivals ++ [c]) =
      applyFetchData (applyCompletions s arrivals) c.data := by
    simp [applyCompletions, List.foldl_append]
  rw [happ]
  obtain ⟨h1, h2, h3, h4, h5⟩ := hfields arrivals s
  generalize applyCompletions s arrivals = st at h1 h2 h3 h4 h5
  unfold applyFetchData
  simp only [h1, h2, h3, h4, h5]

/-! ## Sort controls -/

theorem updatePlayerSort_sortOrder (key : String) (s : DashboardState)
    (h : s.sortOrder = 0 ∨ s.sortOrder = 1) :
    (updatePlayerSort key s).sortOrder =
      (if key = s.filterKey then (if s.sortOrder = 0 then 1 else 0) else 0) := by
  unfold updatePlayerSort
  by_cases hk : key = s.filterKey
  · rcases h with h0 | h1
    · simp [hk, h0]
    · simp [hk, h1]
  · simp [hk]

theorem updatePlayerSort_binary (key : String) (s : DashboardState)
    (h : s.sortOrder = 0 ∨ s.sortOrder = 1) :
    (updatePlayerSort key s).sortOrder = 0 ∨ (updatePlayerSort key s).sortOrder = 1 := by
  rw [updatePlayerSort_sortOrder key s h]
  by_cases hk : key = s.filterKey
  · rcases h with h0 | h1
    · simp [hk, h0]
    · simp [hk, h1]
  · simp [hk]

/-- C10: `updatePlayerSort(key)` makes `key` the active sort key; the direction
becomes the opposite of the current one (0 to 1, 1 to 0) when `key` was already
active and 0 otherwise, so a second call with the same key restores the
direction of a state in which `key` was active; `showSortOrder` then answers
"^" (direction 0) or "v" (direction 1) for `key` and `null` for every other
key. -/
theorem updatePlayerSort_toggles (key : String) (s : DashboardState)
    (h : s.sortOrder = 0 ∨ s.sortOrder = 1) :
    (updatePlayerSort key s).filterKey = key ∧
    (updatePlayerSort key s).sortOrder =
      (if key = s.filterKey then (if s.sortOrder = 0 then 1 else 0) else 0) ∧
    (updatePlayerSort key (updatePlayerSort key s)).sortOrder =
      (if key = s.filterKey then s.sortOrder else 1) ∧
    (∀ k, showSortOrder (updatePlayerSort key s) k =
      if k = key then
        Cell.string (if (updatePlayerSort key s).sortOrder = 0 then "^" else "v")
      else Cell.null) := by
  have hkey : (updatePlayerSort key s).filterKey = key := rfl
  have hord := updatePlayerSort_sortOrder key s h
  have hbin := updatePlayerSort_binary key s h
  refine ⟨hkey, hord, ?_, ?_⟩
  · rw [updatePlayerSort_sortOrder key _ hbin, hkey, hord]
    by_cases hk : key = s.filterKey
    · rcases h with h0 | h1
      · simp [hk, h0]
      · simp [hk, h1]
    · simp [hk]
  · intro k
    unfold showSortOrder
    rw [hkey]
    by_cases hk : k = key
    · subst hk
      rcases hbin with h0 | h1
      · simp [h0]
      · simp [h1]
    · have hk2 : key ≠ k := fun e => hk e.symm
      simp [hk, hk2]

/-- Two clicks on the active column `Yds`. -/
theorem updatePlayerSort_toggles_witness :
    (secondOfThree.sortOrder = 0 ∨ secondOfThree.sortOrder = 1) ∧
    (updatePlayerSort "Yds" secondOfThree).sortOrder = 1 ∧
    (updatePlayerSort "Yds" (updatePlayerSort "Yds" secondOfThree)).sortOrder = 0 :=
  ⟨Or.inl rfl,
    (updatePlayerSort_toggles "Yds" secondOfThree (Or.inl rfl)).2.1,
    (updatePlayerSort_toggles "Yds" secondOfThree (Or.inl rfl)).2.2.1⟩

end Dashboard
